import Mathlib

/-!
Verification of the `generic-array` crate (`src/lib.rs`) against its
natural-language specification.

The crate stores exactly `N` elements of a type `T`, with `N` a type-level
(typenum) unsigned integer.  We shallow-embed:

* the type-level length and the recursive backing-storage layout
  (`ArrayLength for UTerm / UInt<N, B0> / UInt<N, B1>`,
  `GenericArrayImplEven` / `GenericArrayImplOdd`);
* the element-by-element construction and consumption loops of
  `FromIterator::from_iter`, `GenericArray::from_exact_iter`,
  `FunctionalSequence::map` / `zip` (via `GenericSequence::inverted_zip`)
  and `fold`, and the slice conversions
  (`from_slice`, `TryFrom<&[T]>`).

Iterators are embedded as Lists; a panic of a user-supplied closure is
embedded as the closure returning `none`; a panic of a library entry point
is embedded as `none` / `Except.error`.

The repository sources provided contain only `lib.rs`; the modules
`internal.rs` (ArrayBuilder / ArrayConsumer), `functional.rs`,
`sequence.rs` are absent.  Their behaviour, used by the loops of `lib.rs`,
is modelled from the specification (sections 4.3 and 4.4): a Builder
abandoned after `k` writes destroys exactly the `k` slots already written;
a Consumer abandoned after `k` takes destroys exactly the `N - k` slots not
yet taken; on success the Builder yields exactly the written elements in
order and the Consumer yields the container elements in order.
-/

namespace GenericArray

/-- Modelled from the spec: the loop
`destination_iter.zip(&mut iter).for_each(...)` driving an
`ArrayBuilder` (from the absent `internal.rs`) with `slots` free
destination slots against an external iterator.  Rust `Zip` pulls a
destination slot first and stops, without touching the source, once the
destination is exhausted.  Returns the list of elements written (in write
order) and the part of the source iterator not consumed. -/
def buildZip : ℕ → List α → List α × List α
  | 0, xs => ([], xs)
  | _ + 1, [] => ([], [])
  | n + 1, x :: xs =>
    let p := buildZip n xs
    (x :: p.1, p.2)

@[simp] theorem buildZip_eq_take_drop (n : ℕ) (xs : List α) :
    buildZip n xs = (xs.take n, xs.drop n) := by
  induction n generalizing xs with
  | zero => simp [buildZip]
  | succ n ih =>
    cases xs with
    | nil => simp [buildZip]
    | cons x xs => simp [buildZip, ih]

/-- Embedding of `GenericArray::from_exact_iter` (lib.rs 688-718): fill `n`
slots from the iterator; if fewer than `n` were written return `None`; if a
further `iter.next()` yields an element return `None`; otherwise return the
written elements.  `none` is the length-mismatch report. -/
def from_exact_iter (n : ℕ) (xs : List α) : Option (List α) :=
  let p := buildZip n xs
  if p.1.length ≠ n then none
  else
    match p.2 with
    | _ :: _ => none
    | [] => some p.1

/-- Number of elements actually obtained from the source iterator during
`from_exact_iter` (the writing loop pulls `min n xs.length`; when all `n`
slots were filled, one extra `iter.next()` is issued and its element, if
any, discarded). -/
def fromExactIterPulls (n : ℕ) (xs : List α) : ℕ :=
  let p := buildZip n xs
  if p.1.length ≠ n then p.1.length
  else
    match p.2 with
    | _ :: _ => p.1.length + 1
    | [] => p.1.length

/-- Embedding of `FromIterator::from_iter` (lib.rs 372-401) together with
`from_iter_length_fail` (lib.rs 403-410): a panic is embedded as
`Except.error (received, expected)`, the two numbers interpolated into the
panic message `"GenericArray::from_iter received {} elements but expected {}"`. -/
def fromIterResult (n : ℕ) (xs : List α) : Except (ℕ × ℕ) (List α) :=
  let p := buildZip n xs
  if p.1.length < n then .error (p.1.length, n)
  else
    match p.2 with
    | _ :: _ => .error (n + 1, n)
    | [] => .ok p.1

/-- Number of elements obtained from the source iterator during
`FromIterator::from_iter`, mirroring `fromExactIterPulls`. -/
def fromIterPulls (n : ℕ) (xs : List α) : ℕ :=
  let p := buildZip n xs
  if p.1.length < n then p.1.length
  else
    match p.2 with
    | _ :: _ => p.1.length + 1
    | [] => p.1.length

/-- Embedding of the `LengthError` struct (lib.rs 633). -/
structure LengthError : Type where

instance : DecidableEq LengthError := fun _ _ => .isTrue rfl

/-- Embedding of `TryFrom<&[T]> for &GenericArray` (lib.rs 642-653): the
slice is a List; success returns the very same list (the Rust code returns
a reference aliasing the slice, no copy). -/
def try_from (n : ℕ) (s : List α) : Except LengthError (List α) :=
  if s.length = n then .ok s else .error ⟨⟩

/-- Embedding of `GenericArray::from_slice` (lib.rs 582-588): `none` models
the panic on length mismatch; on success the very same list is returned
(the Rust code returns a reference aliasing the slice). -/
def from_slice (n : ℕ) (s : List α) : Option (List α) :=
  if s.length ≠ n then none
  else some s

/-- Embedding of typenum unsigned integers as they are used by the
`ArrayLength` impls (lib.rs 210-213, 315-323): `uterm` is `UTerm`,
`uint t b` is `UInt<T, B0/B1>` with `b = true` for `B1`. -/
inductive TypeNat : Type
  | uterm : TypeNat
  | uint : TypeNat → Bool → TypeNat
deriving DecidableEq

/-- Numeric value of a typenum unsigned integer: `UInt<T, B>` denotes
`2 * T + B`. -/
def TypeNat.toNat : TypeNat → ℕ
  | .uterm => 0
  | .uint t b => 2 * t.toNat + b.toNat

/-- Size in bytes of `N::ArrayType<T>` for an element type of size `s`,
following the `ArrayLength` impls: `UTerm::ArrayType<T> = [T; 0]` (size 0);
`UInt<N, B0>::ArrayType<T> = GenericArrayImplEven<T, N::ArrayType<T>>`, a
`repr(C)` struct of two copies of the half-size layout plus a zero-sized
`PhantomData` (lib.rs 275-279); `UInt<N, B1>::ArrayType<T> =
GenericArrayImplOdd<T, N::ArrayType<T>>`, two copies of the half-size
layout plus one `T` slot (lib.rs 285-289).  All fields have the alignment
of `T`, so the `repr(C)` struct introduces no padding and its size is the
sum of the field sizes. -/
def arraySize (s : ℕ) : TypeNat → ℕ
  | .uterm => 0
  | .uint t false => arraySize s t + arraySize s t
  | .uint t true => arraySize s t + arraySize s t + s

/-- Byte offsets, from the start of the struct, of the element slots of
`N::ArrayType<T>` in memory order for element size `s`: in a `repr(C)`
struct the fields are laid out in declaration order, so `parent1` starts at
offset 0, `parent2` at `arraySize s t`, and the `data` slot of the odd case
at `2 * arraySize s t`. -/
def layoutOffsets (s : ℕ) : TypeNat → List ℕ
  | .uterm => []
  | .uint t false =>
    layoutOffsets s t ++ (layoutOffsets s t).map (arraySize s t + ·)
  | .uint t true =>
    layoutOffsets s t ++ (layoutOffsets s t).map (arraySize s t + ·)
      ++ [arraySize s t + arraySize s t]

/-- Embedding of the values of `N::ArrayType<T>`: the recursive storage
tree.  `even p1 p2` is a `GenericArrayImplEven` value, `odd p1 p2 d` a
`GenericArrayImplOdd` value whose `data` field is `d`, following
lib.rs 275-289. -/
inductive ArrayType (α : Type u) : TypeNat → Type u
  | uterm : ArrayType α .uterm
  | even {t : TypeNat} : ArrayType α t → ArrayType α t → ArrayType α (.uint t false)
  | odd {t : TypeNat} : ArrayType α t → ArrayType α t → α → ArrayType α (.uint t true)

/-- Elements of a storage tree in memory order (`repr(C)`: `parent1`, then
`parent2`, then for the odd case the trailing `data` slot).  This is the
flat array a `GenericArray` reinterprets its storage as, and the meaning of
`into_array`'s `const_transmute` (lib.rs 623-628). -/
def ArrayType.toList : ArrayType α t → List α
  | .uterm => []
  | .even p1 p2 => p1.toList ++ p2.toList
  | .odd p1 p2 d => p1.toList ++ p2.toList ++ [d]

/-- Storage tree read from a flat list of elements in memory order,
returning the unread remainder; this is the meaning of `from_array`'s
`const_transmute` (lib.rs 612-617).  The `default` placeholder is only
reached when the list is shorter than the layout. -/
def ArrayType.ofListAux [Inhabited α] : (t : TypeNat) → List α → ArrayType α t × List α
  | .uterm, xs => (.uterm, xs)
  | .uint t false, xs =>
    let p1 := ArrayType.ofListAux t xs
    let p2 := ArrayType.ofListAux t p1.2
    (.even p1.1 p2.1, p2.2)
  | .uint t true, xs =>
    let p1 := ArrayType.ofListAux t xs
    let p2 := ArrayType.ofListAux t p1.2
    match p2.2 with
    | [] => (.odd p1.1 p2.1 default, [])
    | d :: rest => (.odd p1.1 p2.1 d, rest)

/-- Embedding of `GenericArray::from_array` (lib.rs 612-617): reinterpret a
flat array of `t.toNat` elements as the storage tree. -/
def from_array [Inhabited α] (t : TypeNat) (xs : List α) : ArrayType α t :=
  (ArrayType.ofListAux t xs).1

/-- Embedding of `GenericArray::into_array` (lib.rs 623-628): reinterpret
the storage tree as a flat array of `t.toNat` elements. -/
def into_array (a : ArrayType α t) : List α :=
  a.toList

theorem arraySize_eq (s : ℕ) : ∀ t : TypeNat, arraySize s t = t.toNat * s
  | .uterm => by simp [arraySize, TypeNat.toNat]
  | .uint t false => by
    simp [arraySize, TypeNat.toNat, arraySize_eq s t]
    ring
  | .uint t true => by
    simp [arraySize, TypeNat.toNat, arraySize_eq s t]
    ring

theorem layoutOffsets_eq (s : ℕ) :
    ∀ t : TypeNat, layoutOffsets s t = (List.range t.toNat).map (· * s)
  | .uterm => by simp [layoutOffsets, TypeNat.toNat]
  | .uint t false => by
    have ih := layoutOffsets_eq s t
    simp only [layoutOffsets, TypeNat.toNat, ih, arraySize_eq, Bool.toNat_false,
      Nat.add_zero, Nat.two_mul, List.range_add, List.map_append, List.map_map]
    congr 1
    apply List.map_congr_left
    intro a _
    simp only [Function.comp_apply]
    ring
  | .uint t true => by
    have ih := layoutOffsets_eq s t
    simp only [layoutOffsets, TypeNat.toNat, ih, arraySize_eq, Bool.toNat_true,
      Nat.two_mul, List.range_add, List.map_append, List.map_map]
    congr 1
    · congr 1
      apply List.map_congr_left
      intro a _
      simp only [Function.comp_apply]
      ring
    · simp only [List.range_succ, List.range_zero, List.nil_append, List.map_cons,
        List.map_nil, Function.comp_apply, List.cons.injEq, and_true]
      ring

theorem ofListAux_toList [Inhabited α] :
    ∀ (t : TypeNat) (ys : List α), t.toNat ≤ ys.length →
      (ArrayType.ofListAux t ys).1.toList = ys.take t.toNat ∧
      (ArrayType.ofListAux t ys).2 = ys.drop t.toNat := by
  intro t
  induction t with
  | uterm => intro ys _; simp [ArrayType.ofListAux, ArrayType.toList, TypeNat.toNat]
  | uint t b ih =>
    intro ys hlen
    replace hlen : 2 * t.toNat + b.toNat ≤ ys.length := hlen
    have hk : t.toNat ≤ ys.length := by omega
    obtain ⟨h1l, h1r⟩ := ih ys hk
    have hk2 : t.toNat ≤ ((ArrayType.ofListAux t ys).2).length := by
      rw [h1r, List.length_drop]
      omega
    obtain ⟨h2l, h2r⟩ := ih (ArrayType.ofListAux t ys).2 hk2
    cases b with
    | false =>
      simp only [ArrayType.ofListAux, ArrayType.toList, TypeNat.toNat, Bool.toNat_false,
        Nat.add_zero, Nat.two_mul]
      rw [h2l, h2r, h1r, h1l, List.drop_drop, List.take_add]
      exact ⟨rfl, by rw [Nat.add_comm]⟩
    | true =>
      simp only [Bool.toNat_true] at hlen
      have hrest : (ArrayType.ofListAux t (ArrayType.ofListAux t ys).2).2 =
          ys.drop (t.toNat + t.toNat) := by rw [h2r, h1r, List.drop_drop]
      have hlen2 : 0 < (ys.drop (t.toNat + t.toNat)).length := by
        rw [List.length_drop]
        omega
      obtain ⟨d, rest, hdr⟩ := List.exists_cons_of_ne_nil (List.ne_nil_of_length_pos hlen2)
      simp only [ArrayType.ofListAux, ArrayType.toList, TypeNat.toNat, Bool.toNat_true,
        Nat.two_mul, hrest, hdr]
      rw [h2l, h1r, h1l]
      constructor
      · have htk : ys.take (t.toNat + t.toNat + 1) =
            ys.take (t.toNat + t.toNat) ++ [d] := by
          rw [List.take_add ys (t.toNat + t.toNat) 1, hdr]
          simp
        rw [← List.take_add, ← htk]
      · have hdp : ys.drop (t.toNat + t.toNat + 1) = rest := by
          have h1 : ys.drop (t.toNat + t.toNat + 1) =
              (ys.drop (t.toNat + t.toNat)).drop 1 := by
            rw [List.drop_drop, Nat.add_comm]
          rw [h1, hdr]
          simp
        exact hdp.symm

/-- Outcome of running `map` with a function that may panic.  `ok result
callLog` is the success case: `result` are the elements written to the
destination builder (the new container) and `callLog` the arguments handed
to `f`, in call order.  `panicked destDestroyed inflight consumerDestroyed`
is the failure case; it records every destroy event:
`destDestroyed` are the destination elements destroyed when the builder
inside `FromIterator::from_iter` is abandoned, `inflight` is the source
element that had been read out of the consumer and moved into `f` and is
destroyed as `f`'s frame unwinds, `consumerDestroyed` are the source
elements the abandoned consumer still owned and destroys.  Modelled from
the spec: the abandonment destroy sets of Builder and Consumer come from
spec sections 4.3 and 4.4 (`internal.rs` is absent from the sources). -/
inductive MapOutcome (α β : Type u) : Type u
  | ok : List β → List α → MapOutcome α β
  | panicked : List β → α → List α → MapOutcome α β
deriving DecidableEq

/-- Embedding of the loop of `FunctionalSequence::map` (lib.rs 510-529):
the consumer iterator yields source elements in order; for each, the
element is read out, the source position advanced, and `f` applied; the
result is written to the destination builder, whose position advances.
`f` receives its zero-based call index so that a panic on the `i`-th call
can be expressed; `f k x = none` embeds a panic of `f` on that call. -/
def mapGo (f : ℕ → α → Option β) : ℕ → List α → MapOutcome α β
  | _, [] => .ok [] []
  | k, x :: rest =>
    match f k x with
    | none => .panicked [] x rest
    | some y =>
      match mapGo f (k + 1) rest with
      | .ok ys log => .ok (y :: ys) (x :: log)
      | .panicked ds a cs => .panicked (y :: ds) a cs

/-- Top-level entry of the `map` embedding: the call counter starts at 0. -/
def mapRun (f : ℕ → α → Option β) (xs : List α) : MapOutcome α β :=
  mapGo f 0 xs

/-- Outcome of running `zip` with a function that may panic; in the panic
case both in-flight elements (already read out of their consumers, moved
into `f`) and both consumers' remaining elements are recorded, mirroring
`MapOutcome`. -/
inductive ZipOutcome (α β γ : Type u) : Type u
  | ok : List γ → List (α × β) → ZipOutcome α β γ
  | panicked : List γ → α × β → List α → List β → ZipOutcome α β γ
deriving DecidableEq

/-- Embedding of the loop of `GenericSequence::inverted_zip`
(lib.rs 440-469), reached from `FunctionalSequence::zip` (lib.rs 531-541)
as `rhs.inverted_zip(self, f)`: the left consumer holds the receiver's
elements (`as`), the right consumer holds the argument's elements (`bs`);
each step reads one element from each, advances both positions, and calls
`f left right`; the result feeds the destination builder inside
`FromIterator::from_iter`. -/
def zipGo (f : ℕ → α → β → Option γ) : ℕ → List α → List β → ZipOutcome α β γ
  | _, [], _ => .ok [] []
  | _, _ :: _, [] => .ok [] []
  | k, a :: as, b :: bs =>
    match f k a b with
    | none => .panicked [] (a, b) as bs
    | some c =>
      match zipGo f (k + 1) as bs with
      | .ok cs log => .ok (c :: cs) ((a, b) :: log)
      | .panicked ds p ra rb => .panicked (c :: ds) p ra rb

/-- Top-level entry of the `zip` embedding: the call counter starts at 0. -/
def zipRun (f : ℕ → α → β → Option γ) (as : List α) (bs : List β) :
    ZipOutcome α β γ :=
  zipGo f 0 as bs

/-- Outcome of running `fold` with a step function that may panic.  On
success, the final accumulator and the list of elements consumed (each
moved into `f` by value and destroyed there after use).  On panic:
`processed` are the elements already consumed and destroyed inside earlier
`f` calls, `inflight` the element read out and destroyed as the panicking
`f` call unwinds, `consumerDestroyed` the elements the abandoned consumer
destroys. -/
inductive FoldOutcome (α υ : Type u) : Type u
  | ok : υ → List α → FoldOutcome α υ
  | panicked : List α → α → List α → FoldOutcome α υ
deriving DecidableEq

/-- Embedding of the loop of `FunctionalSequence::fold` (lib.rs 543-558):
the consumer iterator yields source elements in order; each is read out,
the position advanced, and `f acc value` computed. -/
def foldGo (f : ℕ → υ → α → Option υ) : ℕ → υ → List α → FoldOutcome α υ
  | _, acc, [] => .ok acc []
  | k, acc, x :: rest =>
    match f k acc x with
    | none => .panicked [] x rest
    | some acc2 =>
      match foldGo f (k + 1) acc2 rest with
      | .ok r log => .ok r (x :: log)
      | .panicked ps a cs => .panicked (x :: ps) a cs

/-- Top-level entry of the `fold` embedding: the call counter starts at 0. -/
def foldRun (f : ℕ → υ → α → Option υ) (init : υ) (xs : List α) :
    FoldOutcome α υ :=
  foldGo f 0 init xs

/-- A user-supplied per-element function that computes `g` but panics on
its `i`-th call (zero-based). -/
def failAt (g : α → β) (i : ℕ) : ℕ → α → Option β :=
  fun k x => if k = i then none else some (g x)

/-- Same as `failAt` for the two-argument functions handed to `zip`. -/
def failAt2 (g : α → β → γ) (i : ℕ) : ℕ → α → β → Option γ :=
  fun k a b => if k = i then none else some (g a b)

/-- Same as `failAt` for the accumulator step functions handed to `fold`. -/
def failAtF (g : υ → α → υ) (i : ℕ) : ℕ → υ → α → Option υ :=
  fun k acc x => if k = i then none else some (g acc x)

theorem mapGo_ok (g : α → β) :
    ∀ (k : ℕ) (xs : List α),
      mapGo (fun _ x => some (g x)) k xs = .ok (xs.map g) xs
  | _, [] => rfl
  | k, x :: rest => by
    simp only [mapGo, List.map_cons, mapGo_ok g (k + 1) rest]

theorem mapGo_failAt (g : α → β) :
    ∀ (xs : List α) (i k : ℕ) (h : i < xs.length),
      mapGo (failAt g (k + i)) k xs =
        .panicked ((xs.take i).map g) (xs.get ⟨i, h⟩) (xs.drop (i + 1))
  | [], i, k, h => absurd h (by simp)
  | x :: rest, 0, k, h => by
    simp [mapGo, failAt]
  | x :: rest, i + 1, k, h => by
    have hik : k + (i + 1) = (k + 1) + i := by omega
    have ih := mapGo_failAt g rest i (k + 1) (Nat.lt_of_succ_lt_succ h)
    have hf : failAt g ((k + 1) + i) k x = some (g x) := by
      simp only [failAt]
      rw [if_neg (by omega)]
    rw [hik]
    simp only [mapGo, hf, ih]
    simp [List.get]

theorem zipGo_ok (g : α → β → γ) :
    ∀ (k : ℕ) (as : List α) (bs : List β),
      zipGo (fun _ a b => some (g a b)) k as bs =
        .ok (List.zipWith g as bs) (as.zip bs)
  | _, [], _ => rfl
  | _, _ :: _, [] => rfl
  | k, a :: as, b :: bs => by
    simp only [zipGo, List.zipWith_cons_cons, List.zip_cons_cons,
      zipGo_ok g (k + 1) as bs]

theorem zipGo_failAt2 (g : α → β → γ) :
    ∀ (as : List α) (bs : List β) (i k : ℕ) (ha : i < as.length)
      (hb : i < bs.length),
      zipGo (failAt2 g (k + i)) k as bs =
        .panicked ((List.zipWith g as bs).take i)
          (as.get ⟨i, ha⟩, bs.get ⟨i, hb⟩) (as.drop (i + 1)) (bs.drop (i + 1))
  | [], _, i, k, ha, hb => absurd ha (by simp)
  | _ :: _, [], i, k, ha, hb => absurd hb (by simp)
  | a :: as, b :: bs, 0, k, ha, hb => by
    simp [zipGo, failAt2]
  | a :: as, b :: bs, i + 1, k, ha, hb => by
    have hik : k + (i + 1) = (k + 1) + i := by omega
    have ih := zipGo_failAt2 g as bs i (k + 1)
      (Nat.lt_of_succ_lt_succ ha) (Nat.lt_of_succ_lt_succ hb)
    have hf : failAt2 g ((k + 1) + i) k a b = some (g a b) := by
      simp only [failAt2]
      rw [if_neg (by omega)]
    rw [hik]
    simp only [zipGo, hf, ih]
    simp [List.get]

theorem foldGo_ok (g : υ → α → υ) :
    ∀ (k : ℕ) (init : υ) (xs : List α),
      foldGo (fun _ acc x => some (g acc x)) k init xs =
        .ok (xs.foldl g init) xs
  | _, _, [] => rfl
  | k, init, x :: rest => by
    simp only [foldGo, List.foldl_cons, foldGo_ok g (k + 1) (g init x) rest]

theorem foldGo_failAtF (g : υ → α → υ) :
    ∀ (xs : List α) (i k : ℕ) (init : υ) (h : i < xs.length),
      foldGo (failAtF g (k + i)) k init xs =
        .panicked (xs.take i) (xs.get ⟨i, h⟩) (xs.drop (i + 1))
  | [], i, k, init, h => absurd h (by simp)
  | x :: rest, 0, k, init, h => by
    simp [foldGo, failAtF]
  | x :: rest, i + 1, k, init, h => by
    have hik : k + (i + 1) = (k + 1) + i := by omega
    have ih := foldGo_failAtF g rest i (k + 1) (g init x)
      (Nat.lt_of_succ_lt_succ h)
    have hf : failAtF g ((k + 1) + i) k init x = some (g init x) := by
      simp only [failAtF]
      rw [if_neg (by omega)]
    rw [hik]
    simp only [foldGo, hf, ih]
    simp [List.get]

theorem from_exact_iter_eq (n : ℕ) (xs : List α) :
    from_exact_iter n xs = if xs.length = n then some xs else none := by
  simp only [from_exact_iter, buildZip_eq_take_drop, List.length_take]
  rcases Nat.lt_trichotomy xs.length n with h | h | h
  · rw [if_pos (by omega), if_neg (by omega)]
  · rw [if_neg (by omega)]
    have hd : xs.drop n = [] := by
      rw [List.drop_eq_nil_iff]
      omega
    have ht : xs.take n = xs := by
      rw [← h, List.take_length]
    rw [hd, ht, if_pos h]
  · rw [if_neg (by omega)]
    have hd : 0 < (xs.drop n).length := by
      rw [List.length_drop]
      omega
    obtain ⟨d, rest, hdr⟩ :=
      List.exists_cons_of_ne_nil (List.ne_nil_of_length_pos hd)
    rw [hdr, if_neg (by omega)]

theorem fromExactIterPulls_over (n : ℕ) (xs : List α) (h : n < xs.length) :
    fromExactIterPulls n xs = n + 1 := by
  simp only [fromExactIterPulls, buildZip_eq_take_drop, List.length_take]
  have hd : 0 < (xs.drop n).length := by
    rw [List.length_drop]
    omega
  obtain ⟨d, rest, hdr⟩ :=
    List.exists_cons_of_ne_nil (List.ne_nil_of_length_pos hd)
  rw [hdr, if_neg (by omega)]
  show n ⊓ xs.length + 1 = n + 1
  omega

theorem fromIterResult_eq (n : ℕ) (xs : List α) :
    fromIterResult n xs =
      if xs.length < n then .error (xs.length, n)
      else if xs.length = n then .ok xs
      else .error (n + 1, n) := by
  simp only [fromIterResult, buildZip_eq_take_drop, List.length_take]
  rcases Nat.lt_trichotomy xs.length n with h | h | h
  · rw [if_pos (by omega), if_pos h, min_eq_right (Nat.le_of_lt h)]
  · rw [if_neg (by omega)]
    have hd : xs.drop n = [] := by
      rw [List.drop_eq_nil_iff]
      omega
    have ht : xs.take n = xs := by
      rw [← h, List.take_length]
    rw [hd, ht, if_neg (by omega), if_pos h]
  · rw [if_neg (by omega)]
    have hd : 0 < (xs.drop n).length := by
      rw [List.length_drop]
      omega
    obtain ⟨d, rest, hdr⟩ :=
      List.exists_cons_of_ne_nil (List.ne_nil_of_length_pos hd)
    rw [hdr, if_neg (by omega), if_neg (by omega)]

theorem fromIterPulls_over (n : ℕ) (xs : List α) (h : n < xs.length) :
    fromIterPulls n xs = n + 1 := by
  simp only [fromIterPulls, buildZip_eq_take_drop, List.length_take]
  have hd : 0 < (xs.drop n).length := by
    rw [List.length_drop]
    omega
  obtain ⟨d, rest, hdr⟩ :=
    List.exists_cons_of_ne_nil (List.ne_nil_of_length_pos hd)
  rw [hdr, if_neg (by omega)]
  show n ⊓ xs.length + 1 = n + 1
  omega

/-- C2: for every element size `s` and type-level length `t`, the backing
storage type composed recursively by the `ArrayLength` impls (zero-slot
layout for `UTerm`, two adjacent half layouts for `UInt<-, B0>`, two
adjacent half layouts plus one slot for `UInt<-, B1>`) has size in bytes
equal to `t.toNat * s`, and its element slots sit at the byte offsets
`0, s, 2s, ..., (t.toNat - 1) * s`, so the storage is reinterpretable as a
flat contiguous array of `t.toNat` elements. -/
theorem storage_layout (s : ℕ) (t : TypeNat) :
    arraySize s t = t.toNat * s ∧
    layoutOffsets s t = (List.range t.toNat).map (· * s) :=
  ⟨arraySize_eq s t, layoutOffsets_eq s t⟩

/-- C9: converting a native fixed-size array (a flat list of `t.toNat`
elements in memory order) into a `GenericArray` storage tree via
`from_array` and back via `into_array` yields the original element
sequence. -/
theorem array_roundtrip [Inhabited α] (t : TypeNat) (xs : List α)
    (h : xs.length = t.toNat) :
    into_array (from_array t xs) = xs := by
  have hof := ofListAux_toList t xs (le_of_eq h.symm)
  rw [into_array, from_array, hof.1, ← h, List.take_length]

theorem array_roundtrip_witness :
    into_array (from_array (.uint (.uint .uterm true) true) [1, 2, 3]) =
      [1, 2, 3] :=
  array_roundtrip (.uint (.uint .uterm true) true) [1, 2, 3] (by decide)

/-- C6: `fold` over a container equals the left fold of `f` over the
elements in index order, calling `f` once per element in order (the
consumed-element log is the element list itself); for the empty container
it returns `init` unchanged; folding `[1,2,3,4]` from `0` with addition
yields `10`. -/
theorem fold_semantics (g : υ → α → υ) (init : υ) (xs : List α) :
    foldRun (fun _ acc x => some (g acc x)) init xs =
      .ok (xs.foldl g init) xs ∧
    foldRun (fun _ acc x => some (g acc x)) init ([] : List α) =
      .ok init [] ∧
    foldRun (fun _ acc x => some (acc + x)) 0 [1, 2, 3, 4] =
      .ok 10 [1, 2, 3, 4] :=
  ⟨foldGo_ok g 0 init xs, foldGo_ok g 0 init [], by decide⟩

/-- C3: `from_exact_iter` returns `some` exactly when the source yields
exactly `n` items, and then holds those items in source order; on any
other length it returns `none`; when the source is longer than `n`, the
construction obtains exactly `n + 1` items from it (the `n+1`-th pull is
issued, checked and discarded) and no more. -/
theorem from_exact_iter_spec (n : ℕ) (xs : List α) :
    (∀ ys, from_exact_iter n xs = some ys ↔ xs.length = n ∧ ys = xs) ∧
    (xs.length ≠ n → from_exact_iter n xs = none) ∧
    (n < xs.length → fromExactIterPulls n xs = n + 1) := by
  refine ⟨fun ys => ?_, fun h => ?_, fun h => fromExactIterPulls_over n xs h⟩
  · rw [from_exact_iter_eq]
    by_cases h : xs.length = n <;> simp [h, eq_comm]
  · rw [from_exact_iter_eq, if_neg h]

theorem from_exact_iter_spec_witness :
    from_exact_iter 3 [1, 2, 3] = some [1, 2, 3] ∧
    from_exact_iter 3 [1, 2] = none ∧
    from_exact_iter 3 [1, 2, 3, 4, 5] = none ∧
    fromExactIterPulls 3 [1, 2, 3, 4, 5] = 4 := by
  have h1 := from_exact_iter_spec 3 ([1, 2, 3] : List ℕ)
  have h2 := from_exact_iter_spec 3 ([1, 2] : List ℕ)
  have h3 := from_exact_iter_spec 3 ([1, 2, 3, 4, 5] : List ℕ)
  exact ⟨(h1.1 [1, 2, 3]).mpr ⟨by decide, rfl⟩, h2.2.1 (by decide),
    h3.2.1 (by decide), h3.2.2 (by decide)⟩

/-- C7: the fallible slice conversion `TryFrom` succeeds exactly when the
slice length equals `n`, returning the very same elements (the Rust code
returns a reference aliasing the slice, no copy), and returns
`LengthError` on any other length; the convenience entry point
`from_slice` instead panics (`none`) exactly on mismatch. -/
theorem slice_conversion_spec (n : ℕ) (s : List α) :
    (try_from n s = .ok s ↔ s.length = n) ∧
    (∀ r, try_from n s = .ok r → r = s ∧ s.length = n) ∧
    (s.length ≠ n → try_from n s = .error ⟨⟩) ∧
    (s.length = n → from_slice n s = some s) ∧
    (from_slice n s = none ↔ s.length ≠ n) := by
  unfold try_from from_slice
  by_cases h : s.length = n <;> simp [h, eq_comm]

theorem slice_conversion_spec_witness :
    try_from 2 [5, 6] = .ok [5, 6] ∧
    try_from 2 [5, 6, 7] = .error ⟨⟩ ∧
    from_slice 2 [5, 6] = some [5, 6] ∧
    from_slice 2 [5, 6, 7] = none := by
  have h1 := slice_conversion_spec 2 ([5, 6] : List ℕ)
  have h2 := slice_conversion_spec 2 ([5, 6, 7] : List ℕ)
  exact ⟨h1.1.mpr (by decide), h2.2.2.1 (by decide),
    h1.2.2.2.1 (by decide), h2.2.2.2.2.mpr (by decide)⟩

/-- C8: the strict construction `FromIterator::from_iter` panics (embedded
as `Except.error` carrying the two numbers interpolated into the panic
message) whenever the source yields fewer or more than `n` elements, and
otherwise returns the container holding the `n` elements in source
order. -/
theorem from_iter_strict (n : ℕ) (xs : List α) :
    (xs.length = n → fromIterResult n xs = .ok xs) ∧
    (xs.length ≠ n → ∃ e, fromIterResult n xs = .error e) := by
  rw [fromIterResult_eq]
  refine ⟨fun h => ?_, fun h => ?_⟩
  · rw [if_neg (by omega), if_pos h]
  · rcases Nat.lt_or_ge xs.length n with hlt | hge
    · exact ⟨(xs.length, n), by rw [if_pos hlt]⟩
    · exact ⟨(n + 1, n), by rw [if_neg (by omega), if_neg h]⟩

theorem from_iter_strict_witness :
    fromIterResult 3 [1, 2, 3] = .ok [1, 2, 3] ∧
    (∃ e, fromIterResult 3 ([1, 2] : List ℕ) = .error e) ∧
    (∃ e, fromIterResult 3 ([1, 2, 3, 4] : List ℕ) = .error e) := by
  have h1 := from_iter_strict 3 ([1, 2, 3] : List ℕ)
  have h2 := from_iter_strict 3 ([1, 2] : List ℕ)
  have h3 := from_iter_strict 3 ([1, 2, 3, 4] : List ℕ)
  exact ⟨h1.1 (by decide), h2.2 (by decide), h3.2 (by decide)⟩

/-- C10: when `FromIterator::from_iter` is given a source with more than
`n` elements, it obtains exactly one element beyond the `n`-th (`n + 1`
items in total) before panicking, and the panic reports the received
length as `n + 1` and the expected length as `n`, regardless of how many
further elements the source could yield. -/
theorem from_iter_overflow (n : ℕ) (xs : List α) (h : n < xs.length) :
    fromIterResult n xs = .error (n + 1, n) ∧ fromIterPulls n xs = n + 1 := by
  refine ⟨?_, fromIterPulls_over n xs h⟩
  rw [fromIterResult_eq, if_neg (by omega), if_neg (by omega)]

theorem from_iter_overflow_witness :
    fromIterResult 2 ([1, 2, 3, 4, 5, 6] : List ℕ) = .error (3, 2) ∧
    fromIterPulls 2 ([1, 2, 3, 4, 5, 6] : List ℕ) = 3 :=
  from_iter_overflow 2 [1, 2, 3, 4, 5, 6] (by decide)

/-- C4: `map(self, f)` over a container of `n` elements produces `n`
elements whose `i`-th entry is `f` of the `i`-th input for every
`i < n`, with `f` invoked exactly once per element in increasing index
order (the call log is the input list itself); mapping squaring over
`[1,2,3]` yields `[1,4,9]`. -/
theorem map_semantics (g : α → β) (xs : List α) :
    mapRun (fun _ x => some (g x)) xs = .ok (xs.map g) xs ∧
    (xs.map g).length = xs.length ∧
    (∀ (i : ℕ) (hi : i < xs.length),
      (xs.map g).get ⟨i, by simpa using hi⟩ = g (xs.get ⟨i, hi⟩)) ∧
    mapRun (fun _ x => some (x * x)) [1, 2, 3] = .ok [1, 4, 9] [1, 2, 3] := by
  refine ⟨mapGo_ok g 0 xs, by simp, fun i hi => ?_, by decide⟩
  simp

theorem map_semantics_witness :
    mapRun (fun _ x => some (x * x)) [1, 2, 3] = .ok [1, 4, 9] [1, 2, 3] ∧
    ([1, 2, 3].map fun x => x * x).get ⟨1, by decide⟩ = 4 := by
  have h := map_semantics (fun x : ℕ => x * x) [1, 2, 3]
  exact ⟨h.2.2.2, (h.2.2.1 1 (by decide)).trans (by decide)⟩

/-- C5: `zip(a, b, f)` over two same-length containers produces a
container whose `i`-th element is `f a[i] b[i]` — the receiver's element
passed as the first argument, since `zip` forwards to
`rhs.inverted_zip(self, f)` whose left consumer holds the receiver —
for every `i < n`; zipping `[1,2,3]` and `[10,20,30]` with addition
yields `[11,22,33]`. -/
theorem zip_semantics (g : α → β → γ) (as : List α) (bs : List β)
    (h : as.length = bs.length) :
    zipRun (fun _ a b => some (g a b)) as bs =
      .ok (List.zipWith g as bs) (as.zip bs) ∧
    (List.zipWith g as bs).length = as.length ∧
    (∀ (i : ℕ) (hi : i < as.length),
      (List.zipWith g as bs).get ⟨i, by rw [List.length_zipWith]; omega⟩ =
        g (as.get ⟨i, hi⟩) (bs.get ⟨i, by omega⟩)) ∧
    zipRun (fun _ a b => some (a + b)) [1, 2, 3] [10, 20, 30] =
      .ok [11, 22, 33] [(1, 10), (2, 20), (3, 30)] := by
  refine ⟨zipGo_ok g 0 as bs, ?_, fun i hi => ?_, by decide⟩
  · rw [List.length_zipWith, h, Nat.min_self]
  · simp

theorem zip_semantics_witness :
    zipRun (fun _ a b => some (a + b)) [1, 2, 3] [10, 20, 30] =
      .ok [11, 22, 33] [(1, 10), (2, 20), (3, 30)] ∧
    (List.zipWith (fun a b => a + b) [1, 2, 3] [10, 20, 30]).get
      ⟨2, by decide⟩ = 33 := by
  have h := zip_semantics (fun a b : ℕ => a + b) [1, 2, 3] [10, 20, 30]
    (by decide)
  exact ⟨h.2.2.2, (h.2.2.1 2 (by decide)).trans (by decide)⟩

/-- C1: when the user-supplied function panics while processing the `i`-th
element (`i < n`), `map` destroys exactly the `i` already-produced
destination elements (the builder abandons `(xs.take i).map g1`) and
exactly the `n - i` source elements not yet fully consumed (the element
in flight inside the panicking call plus the consumer's remaining
`xs.drop (i+1)`, together `xs.drop i`); `zip` does the same for its
destination and symmetrically for both sources; `fold` destroys the `i`
elements already consumed inside earlier `f` calls and the `n - i`
remaining ones.  The destroyed lists are exact `take`/`drop` partitions of
the inputs, so no element is leaked and none destroyed twice. -/
theorem partial_failure_safety (g1 : α → β) (g2 : α → β → γ)
    (g3 : υ → α → υ) (xs : List α) (bs : List β) (init : υ) (i : ℕ)
    (hi : i < xs.length) (hlen : bs.length = xs.length) :
    (mapRun (failAt g1 i) xs =
        .panicked ((xs.take i).map g1) (xs.get ⟨i, hi⟩) (xs.drop (i + 1)) ∧
      ((xs.take i).map g1).length = i ∧
      xs.get ⟨i, hi⟩ :: xs.drop (i + 1) = xs.drop i ∧
      (xs.drop i).length = xs.length - i ∧
      xs.take i ++ xs.drop i = xs) ∧
    (zipRun (failAt2 g2 i) xs bs =
        .panicked ((List.zipWith g2 xs bs).take i)
          (xs.get ⟨i, hi⟩, bs.get ⟨i, by omega⟩)
          (xs.drop (i + 1)) (bs.drop (i + 1)) ∧
      ((List.zipWith g2 xs bs).take i).length = i ∧
      bs.get ⟨i, by omega⟩ :: bs.drop (i + 1) = bs.drop i ∧
      (bs.drop i).length = bs.length - i ∧
      bs.take i ++ bs.drop i = bs) ∧
    (foldRun (failAtF g3 i) init xs =
        .panicked (xs.take i) (xs.get ⟨i, hi⟩) (xs.drop (i + 1)) ∧
      (xs.take i).length = i) := by
  have hm := mapGo_failAt g1 xs i 0 hi
  have hz := zipGo_failAt2 g2 xs bs i 0 hi (by omega)
  have hf := foldGo_failAtF g3 xs i 0 init hi
  rw [Nat.zero_add] at hm hz hf
  refine ⟨⟨hm, ?_, ?_, ?_, ?_⟩, ⟨hz, ?_, ?_, ?_, ?_⟩, hf, ?_⟩
  · simp only [List.length_map, List.length_take]
    omega
  · exact (List.drop_eq_get_cons hi).symm
  · simp
  · exact List.take_append_drop i xs
  · simp only [List.length_take, List.length_zipWith]
    omega
  · exact (List.drop_eq_get_cons (by omega)).symm
  · simp
  · exact List.take_append_drop i bs
  · simp only [List.length_take]
    omega

theorem partial_failure_safety_witness :
    mapRun (failAt (fun x => x * 2) 1) [1, 2, 3] = .panicked [2] 2 [3] ∧
    zipRun (failAt2 (fun a b => a + b) 1) [1, 2, 3] [10, 20, 30] =
      .panicked [11] (2, 20) [3] [30] ∧
    foldRun (failAtF (fun acc x => acc + x) 1) 0 [1, 2, 3] =
      .panicked [1] 2 [3] := by
  have h := partial_failure_safety (fun x : ℕ => x * 2) (fun a b : ℕ => a + b)
    (fun acc x : ℕ => acc + x) [1, 2, 3] [10, 20, 30] 0 1 (by decide)
    (by decide)
  exact ⟨h.1.1.trans (by decide), h.2.1.1.trans (by decide),
    h.2.2.1.trans (by decide)⟩

end GenericArray
